import Mathlib

/-!
Verification of the hook-merge core of `claude-blocker` (`setup.ts`).

The settings file is a JSON document.  We embed JSON values shallowly:
objects are association lists of string keys and values, in insertion
order, matching the semantics of parsed JavaScript objects (no duplicate
keys arise from `JSON.parse`; key order is insertion order and is what
`JSON.stringify` emits).
-/

namespace ClaudeBlocker

/-- A JSON value, as produced by `JSON.parse`.  Numbers are modelled as
integers (no number in this configuration domain is fractional). -/
inductive Json where
  | null : Json
  | bool (b : Bool) : Json
  | num (n : Int) : Json
  | str (s : String) : Json
  | arr (elems : List Json) : Json
  | obj (fields : List (String × Json)) : Json

/-- First-match lookup of a key in an object's field list (JavaScript
property read `o[k]`; `none` models `undefined`). -/
def lookupKey : List (String × Json) → String → Option Json
  | [], _ => none
  | (k', v) :: rest, k => if k' = k then some v else lookupKey rest k

/-- JavaScript property write `o[k] = v`: replaces the value in place if
the key is present, otherwise appends the new key at the end of the
insertion order. -/
def setKey : List (String × Json) → String → Json → List (String × Json)
  | [], k, v => [(k, v)]
  | (k', v') :: rest, k, v =>
      if k' = k then (k, v) :: rest else (k', v') :: setKey rest k v

/-- JavaScript `delete o[k]`. -/
def delKey (o : List (String × Json)) (k : String) : List (String × Json) :=
  o.filter (fun p => p.1 ≠ k)

/-- JavaScript truthiness of a JSON value. -/
def truthy : Json → Bool
  | .null => false
  | .bool b => b
  | .num n => n != 0
  | .str s => s != ""
  | .arr _ => true
  | .obj _ => true

/-- `leadMatch needle hay`: the character list `needle` is an initial
segment of `hay`. -/
def leadMatch : List Char → List Char → Bool
  | [], _ => true
  | _ :: _, [] => false
  | a :: as, b :: bs => a == b && leadMatch as bs

/-- `containsSub needle hay`: `needle` occurs contiguously inside `hay`. -/
def containsSub (needle : List Char) : List Char → Bool
  | [] => needle.isEmpty
  | c :: t => leadMatch needle (c :: t) || containsSub needle t

/-- JavaScript `hay.includes(needle)` on strings. -/
def stringIncludes (hay needle : String) : Bool :=
  containsSub needle.toList hay.toList

/-- Modelled from the spec: the listener port.  The constant
`DEFAULT_PORT` is imported from the package `@claude-blocker/shared`,
which is not part of the sources here.  Per the spec the canonical hook
command embeds "the listener port used for detection", and both
detection checks in the source hard-code the substring
`localhost:8765/hook`, so the port is 8765. -/
def DEFAULT_PORT : Nat := 8765

/-- The fixed signature substring both ownership checks look for
(hard-coded twice in `setup.ts`). -/
def SIGNATURE : String := "localhost:8765/hook"

/-- The canonical shell command installed for every event
(`HOOK_COMMAND` in `setup.ts`). -/
def HOOK_COMMAND : String :=
  "curl -s -X POST http://localhost:" ++ toString DEFAULT_PORT ++
    "/hook -H 'Content-Type: application/json' -d \"$(cat)\" > /dev/null 2>&1 &"

/-- The canonical Hook Action
`\x7b type: "command", command: HOOK_COMMAND \x7d`. -/
def ourHookAction : Json :=
  .obj [("type", .str "command"), ("command", .str HOOK_COMMAND)]

/-- A canonical Hook Group without a matcher field. -/
def ourPlainGroup : Json :=
  .obj [("hooks", .arr [ourHookAction])]

/-- A canonical Hook Group with a matcher field (field order as in the
source: `matcher` first, then `hooks`). -/
def ourMatcherGroup (m : String) : Json :=
  .obj [("matcher", .str m), ("hooks", .arr [ourHookAction])]

/-- `HOOKS_CONFIG` from `setup.ts`: for each supported event name, the
list of hook groups this tool installs (one group per event). -/
def HOOKS_CONFIG : List (String × List Json) :=
  [ ("UserPromptSubmit", [ourPlainGroup]),
    ("PreToolUse", [ourMatcherGroup "*"]),
    ("Stop", [ourPlainGroup]),
    ("SessionStart", [ourPlainGroup]),
    ("SessionEnd", [ourPlainGroup]),
    ("Notification", [ourMatcherGroup "permission_prompt"]) ]

/-- The catalog's event names, in source order. -/
def catalogEvents : List String := HOOKS_CONFIG.map Prod.fst

/-- The element check inside `hasOurHook`: `h` is an object whose
`command` field is a string containing the signature substring.
(`typeof h === "object" && h !== null` excludes exactly the non-object
values; a JSON array reaching this check has no `command` property and
also fails.) -/
def isOurAction : Json → Bool
  | .obj f =>
      match lookupKey f "command" with
      | some (.str c) => stringIncludes c SIGNATURE
      | _ => false
  | _ => false

/-- The entry check inside `hasOurHook`: the entry is an object whose
`hooks` field is an array in which SOME element is our action (loose
check). -/
def entryHasOurHook : Json → Bool
  | .obj f =>
      match lookupKey f "hooks" with
      | some (.arr hs) => hs.any isOurAction
      | _ => false
  | _ => false

/-- `hasOurHook` from `setup.ts`: some entry of the event's hook array
loosely contains our action. -/
def hasOurHook (hooks : List Json) : Bool :=
  hooks.any entryHasOurHook

/-- `hasOnlyOurHook` from `removeOurHookEntries`: the entry is an object
whose `hooks` field is an array in which EVERY element is our action
(strict check; vacuously true for an empty `hooks` array, exactly as
`Array.prototype.every` is). -/
def hasOnlyOurHook : Json → Bool
  | .obj f =>
      match lookupKey f "hooks" with
      | some (.arr hs) => hs.all isOurAction
      | _ => false
  | _ => false

/-- `removeOurHookEntries` from `setup.ts`: keep exactly the entries
that are not strictly ours (non-objects and entries without an array
`hooks` field are always kept). -/
def removeOurHookEntries (hooks : List Json) : List Json :=
  hooks.filter (fun entry => ! hasOnlyOurHook entry)

/-- One iteration of the merge loop of `setupHooks` for the catalog row
`p = (hookName, ourEntries)`, acting on the hooks object `h`:
if `h[hookName]` is an array, append our entries unless the loose check
already finds our hook; any other value (absent, falsy, or a non-array
— `!existing || !Array.isArray(existing)`; an array is never falsy) is
replaced by our entries. -/
def mergeStep (h : List (String × Json)) (p : String × List Json) :
    List (String × Json) :=
  match lookupKey h p.1 with
  | some (.arr existing) =>
      if hasOurHook existing then h
      else setKey h p.1 (.arr (existing ++ p.2))
  | _ => setKey h p.1 (.arr p.2)

/-- The merge loop of `setupHooks` over a list of catalog rows. -/
def mergeFold (cfg : List (String × List Json))
    (h : List (String × Json)) : List (String × Json) :=
  match cfg with
  | [] => h
  | p :: rest => mergeFold rest (mergeStep h p)

/-- The in-memory document transform performed by `setupHooks` between
load and save.  `none` models the strict-mode `TypeError` raised when
`settings.hooks` is a truthy primitive (the loop then assigns a
property on a primitive and the operation produces no document).  When
`settings.hooks` is an array, the loop assigns non-index properties on
the array; `JSON.stringify` drops those, so the document written back
is unchanged. -/
def setupHooks (settings : List (String × Json)) :
    Option (List (String × Json)) :=
  let settings1 :=
    if truthy ((lookupKey settings "hooks").getD .null) then settings
    else setKey settings "hooks" (.obj [])
  match lookupKey settings1 "hooks" with
  | some (.obj h) => some (setKey settings1 "hooks" (.obj (mergeFold HOOKS_CONFIG h)))
  | some (.arr _) => some settings1
  | _ => none

/-- One iteration of the removal loop of `removeHooks` for the catalog
row `p`, acting on the hooks object `h`: if `h[p.1]` is an array
(`settings.hooks[hookName] && Array.isArray(...)`; an array is always
truthy), filter out the strictly-ours entries, deleting the key if the
filtered array is empty; any other value is left alone. -/
def pruneStep (h : List (String × Json)) (p : String × List Json) :
    List (String × Json) :=
  match lookupKey h p.1 with
  | some (.arr a) =>
      let filtered := removeOurHookEntries a
      if filtered.isEmpty then delKey h p.1
      else setKey h p.1 (.arr filtered)
  | _ => h

/-- The removal loop of `removeHooks` over a list of catalog rows. -/
def pruneFold (cfg : List (String × List Json))
    (h : List (String × Json)) : List (String × Json) :=
  match cfg with
  | [] => h
  | p :: rest => pruneFold rest (pruneStep h p)

/-- `Object.keys(v).length === 0` for the truthy hooks value `v` in
`removeHooks`: objects and arrays enumerate their own properties
(fields respectively indices); a nonempty string enumerates its
character indices; numbers and booleans have no own enumerable
properties.  (`null` is falsy and never reaches this check.) -/
def jsKeysEmpty : Json → Bool
  | .obj h => h.isEmpty
  | .arr a => a.isEmpty
  | .str s => s.isEmpty
  | _ => true

/-- The in-memory document transform performed by `removeHooks` between
load and save.  When the hooks key is absent or falsy the code takes
the `else` branch and writes nothing, so the document is unchanged.
When the hooks value is truthy but not an object, the per-event loop
finds no array at any catalog key and leaves it alone; the final
`Object.keys` cleanup still deletes the key when it enumerates no own
properties. -/
def removeHooks (settings : List (String × Json)) : List (String × Json) :=
  match lookupKey settings "hooks" with
  | none => settings
  | some hv =>
      if truthy hv then
        match hv with
        | .obj h =>
            let h2 := pruneFold HOOKS_CONFIG h
            if h2.isEmpty then delKey settings "hooks"
            else setKey settings "hooks" (.obj h2)
        | _ => if jsKeysEmpty hv then delKey settings "hooks" else settings
      else settings

/-- The state `areHooksConfigured` observes: the settings file may be
absent, unreadable (`JSON.parse` throws), or hold a parsed JSON value. -/
inductive FileState where
  | absent : FileState
  | unreadable : FileState
  | content (j : Json) : FileState

/-- `areHooksConfigured` from `setup.ts`.  A missing file and a parse
failure yield `false`.  A parsed non-object either has no `hooks`
property (primitives, arrays — property read gives `undefined`, which
is falsy) or throws on the property read (`null`), which the
surrounding `try` turns into `false`.  A falsy `hooks` value fails the
`!settings.hooks` guard.  On a truthy `hooks` value the code evaluates
`hookName in settings.hooks`: for an object this is key presence; for
an array no catalog event name is an index property; for a truthy
primitive the `in` operator throws and the `catch` yields `false`. -/
def areHooksConfigured : FileState → Bool
  | .absent => false
  | .unreadable => false
  | .content j =>
      match j with
      | .obj o =>
          match lookupKey o "hooks" with
          | some hv =>
              if truthy hv then
                match hv with
                | .obj h => HOOKS_CONFIG.any (fun p => (lookupKey h p.1).isSome)
                | _ => false
              else false
          | none => false
      | _ => false

/-- The value of the hooks section at event `e`, when the document has
an object-valued hooks section (`undefined` otherwise). -/
def eventValue (settings : List (String × Json)) (e : String) : Option Json :=
  match lookupKey settings "hooks" with
  | some (.obj h) => lookupKey h e
  | _ => none

/-- The subsequence of non-ours hook groups at event `e` (empty when
the event has no array of groups). -/
def nonOursAt (settings : List (String × Json)) (e : String) : List Json :=
  match eventValue settings e with
  | some (.arr a) => removeOurHookEntries a
  | _ => []

/-- The number of strictly-ours hook groups at event `e`. -/
def oursCount (settings : List (String × Json)) (e : String) : Nat :=
  match eventValue settings e with
  | some (.arr a) => (a.filter hasOnlyOurHook).length
  | _ => 0

/-- Written from the spec's words for the merge policy (section 4.3):
given the existing value at `hooks[event]` and the catalog's canonical
entries, the value merge should leave there: the canonical sequence if
there is no array, the array itself if it loosely contains our hook,
and the array with the canonical sequence appended otherwise. -/
def mergedPolicy (v : Option Json) (entries : List Json) : Option Json :=
  match v with
  | some (.arr a) =>
      if hasOurHook a then some (.arr a) else some (.arr (a ++ entries))
  | _ => some (.arr entries)

/-- Written from the spec's words for the prune policy (section 4.4):
given the existing value at `hooks[event]`, the value prune should
leave there: arrays are filtered to their non-ours groups and deleted
when that leaves nothing; everything else is untouched. -/
def prunedPolicy (v : Option Json) : Option Json :=
  match v with
  | some (.arr a) =>
      match removeOurHookEntries a with
      | [] => none
      | l => some (.arr l)
  | w => w

/-- Written from the spec's words for the round-trip property (section
8): what `prune(merge(d))` should leave at a catalog event, in terms of
the document's original value there: the original non-ours groups when
there are any, nothing otherwise. -/
def roundPolicy (v : Option Json) : Option Json :=
  match v with
  | some (.arr a) =>
      match removeOurHookEntries a with
      | [] => none
      | l => some (.arr l)
  | _ => none

/-! ### Concrete example material -/

/-- A hook action belonging to the user, not to this tool. -/
def userAction : Json :=
  .obj [("type", .str "command"), ("command", .str "echo hi")]

/-- A hook group belonging entirely to the user. -/
def userGroup : Json :=
  .obj [("hooks", .arr [userAction])]

/-- A mixed hook group: one user action and one of our actions. -/
def mixedGroup : Json :=
  .obj [("hooks", .arr [userAction, ourHookAction])]

/-- A degenerate hook group whose `hooks` array is empty. -/
def emptyHooksGroup : Json :=
  .obj [("hooks", .arr [])]

/-- A document with one foreign top-level key and one user group under
the catalog event `Stop`. -/
def docB : List (String × Json) :=
  [("theme", .str "dark"), ("hooks", .obj [("Stop", .arr [userGroup])])]

/-- `docB` after one merge. -/
def docB1 : List (String × Json) := (setupHooks docB).getD []

/-- A document whose hooks section has a non-catalog event holding only
our canonical group. -/
def docFoo : List (String × Json) :=
  [("hooks", .obj [("Foo", .arr [ourPlainGroup])])]

/-- `docFoo` after one merge. -/
def docFoo1 : List (String × Json) := (setupHooks docFoo).getD []

/-- A document whose hooks value is a JSON array, not an object. -/
def docArrE : List (String × Json) := [("hooks", .arr [])]

/-- A document that contains our canonical group for `Stop` twice. -/
def docTwo : List (String × Json) :=
  [("hooks", .obj [("Stop", .arr [ourPlainGroup, ourPlainGroup])])]

/-- `docTwo` after two merges. -/
def docTwo2 : List (String × Json) :=
  ((setupHooks docTwo).bind setupHooks).getD []

/-- A document that contains one user group and one copy of our
canonical group for `Stop`. -/
def docOne : List (String × Json) :=
  [("hooks", .obj [("Stop", .arr [userGroup, ourPlainGroup])])]

/-- `docOne` after one merge. -/
def docOne1 : List (String × Json) := (setupHooks docOne).getD []

/-- `docOne` after two merges. -/
def docOne2 : List (String × Json) := (setupHooks docOne1).getD []

/-- A document where `SessionStart` holds only our group (scenario D). -/
def docD : List (String × Json) :=
  [("hooks", .obj [("SessionStart", .arr [ourPlainGroup])])]

/-! ### Association-list lemmas -/

theorem lookupKey_setKey_self (o : List (String × Json)) (k : String) (v : Json) :
    lookupKey (setKey o k v) k = some v := by
  induction o with
  | nil => simp [setKey, lookupKey]
  | cons p rest ih =>
      obtain ⟨k', v'⟩ := p
      by_cases h : k' = k
      · simp [setKey, lookupKey, h]
      · simp [setKey, lookupKey, h, ih]

theorem lookupKey_setKey_ne (o : List (String × Json)) (k k' : String) (v : Json)
    (h : k' ≠ k) : lookupKey (setKey o k v) k' = lookupKey o k' := by
  induction o with
  | nil => simp [setKey, lookupKey, Ne.symm h]
  | cons p rest ih =>
      obtain ⟨k₀, v₀⟩ := p
      by_cases hk : k₀ = k
      · subst hk
        simp [setKey, lookupKey, Ne.symm h]
      · by_cases hk' : k₀ = k'
        · simp [setKey, lookupKey, h, hk, hk']
        · simp [setKey, lookupKey, h, hk, hk', ih]

theorem lookupKey_delKey_self (o : List (String × Json)) (k : String) :
    lookupKey (delKey o k) k = none := by
  induction o with
  | nil => simp [delKey, lookupKey]
  | cons p rest ih =>
      obtain ⟨k₀, v₀⟩ := p
      by_cases hk : k₀ = k
      · simpa [delKey, lookupKey, List.filter_cons, hk] using ih
      · simpa [delKey, lookupKey, List.filter_cons, hk] using ih

theorem lookupKey_delKey_ne (o : List (String × Json)) (k k' : String)
    (h : k' ≠ k) : lookupKey (delKey o k) k' = lookupKey o k' := by
  induction o with
  | nil => simp [delKey, lookupKey]
  | cons p rest ih =>
      obtain ⟨k₀, v₀⟩ := p
      by_cases hk : k₀ = k
      · subst hk
        simpa [delKey, lookupKey, List.filter_cons, Ne.symm h] using ih
      · by_cases hk' : k₀ = k'
        · simp [delKey, lookupKey, List.filter_cons, h, hk, hk']
        · simpa [delKey, lookupKey, List.filter_cons, h, hk, hk'] using ih

theorem setKey_of_lookup_self (o : List (String × Json)) (k : String) (v : Json)
    (h : lookupKey o k = some v) : setKey o k v = o := by
  induction o with
  | nil => simp [lookupKey] at h
  | cons p rest ih =>
      obtain ⟨k₀, v₀⟩ := p
      by_cases hk : k₀ = k
      · subst hk
        simp [lookupKey] at h
        simp [setKey, h]
      · simp [lookupKey, hk] at h
        simp [setKey, hk, ih h]

theorem setKey_setKey (o : List (String × Json)) (k : String) (v w : Json) :
    setKey (setKey o k v) k w = setKey o k w := by
  induction o with
  | nil => simp [setKey]
  | cons p rest ih =>
      obtain ⟨k₀, v₀⟩ := p
      by_cases hk : k₀ = k
      · simp [setKey, hk]
      · simp [setKey, hk, ih]

theorem delKey_delKey (o : List (String × Json)) (k : String) :
    delKey (delKey o k) k = delKey o k := by
  simp [delKey, List.filter_filter]

theorem delKey_setKey (o : List (String × Json)) (k : String) (v : Json) :
    delKey (setKey o k v) k = delKey o k := by
  induction o with
  | nil => simp [setKey, delKey]
  | cons p rest ih =>
      obtain ⟨k₀, v₀⟩ := p
      by_cases hk : k₀ = k
      · simp [setKey, delKey, List.filter_cons, hk]
      · simpa [setKey, delKey, List.filter_cons, hk] using ih

/-! ### Lemmas about the filter of strictly-ours groups -/

theorem removeOurHookEntries_append (a b : List Json) :
    removeOurHookEntries (a ++ b) =
      removeOurHookEntries a ++ removeOurHookEntries b := by
  simp [removeOurHookEntries, List.filter_append]

theorem removeOurHookEntries_idem (a : List Json) :
    removeOurHookEntries (removeOurHookEntries a) = removeOurHookEntries a := by
  simp [removeOurHookEntries, List.filter_filter]

/-! ### Concrete facts about the catalog, checked by evaluation -/

theorem catalogEvents_nodup : catalogEvents.Nodup := by decide

theorem catalog_hasOurHook : ∀ p ∈ HOOKS_CONFIG, hasOurHook p.2 = true := by decide

theorem catalog_removeOurs_isEmpty :
    ∀ p ∈ HOOKS_CONFIG, (removeOurHookEntries p.2).isEmpty = true := by decide

theorem catalog_removeOurs_nil :
    ∀ p ∈ HOOKS_CONFIG, removeOurHookEntries p.2 = [] := fun p hp =>
  List.isEmpty_iff.mp (catalog_removeOurs_isEmpty p hp)

theorem catalog_groups_have_our :
    ∀ p ∈ HOOKS_CONFIG, ∀ g ∈ p.2, entryHasOurHook g = true := by decide

/-! ### Merge-loop lemmas -/

theorem lookupKey_mergeStep_ne (h : List (String × Json)) (p : String × List Json)
    (k : String) (hk : k ≠ p.1) :
    lookupKey (mergeStep h p) k = lookupKey h k := by
  cases hl : lookupKey h p.1 with
  | none => simp [mergeStep, hl, lookupKey_setKey_ne _ _ _ _ hk]
  | some v =>
      cases v
      case arr a =>
        by_cases ho : hasOurHook a
        · simp [mergeStep, hl, ho]
        · simp [mergeStep, hl, ho, lookupKey_setKey_ne _ _ _ _ hk]
      all_goals simp [mergeStep, hl, lookupKey_setKey_ne _ _ _ _ hk]

theorem lookupKey_mergeStep_self (h : List (String × Json)) (p : String × List Json) :
    lookupKey (mergeStep h p) p.1 = mergedPolicy (lookupKey h p.1) p.2 := by
  cases hl : lookupKey h p.1 with
  | none => simp [mergeStep, mergedPolicy, hl, lookupKey_setKey_self]
  | some v =>
      cases v
      case arr a =>
        by_cases ho : hasOurHook a
        · simp [mergeStep, mergedPolicy, hl, ho]
        · simp [mergeStep, mergedPolicy, hl, ho, lookupKey_setKey_self]
      all_goals simp [mergeStep, mergedPolicy, hl, lookupKey_setKey_self]

theorem lookupKey_mergeFold_notMem (cfg : List (String × List Json)) :
    ∀ h k, k ∉ cfg.map Prod.fst →
      lookupKey (mergeFold cfg h) k = lookupKey h k := by
  induction cfg with
  | nil => intro h k _; rfl
  | cons q rest ih =>
      intro h k hk
      simp only [List.map_cons, List.mem_cons, not_or] at hk
      rw [mergeFold, ih _ _ hk.2, lookupKey_mergeStep_ne _ _ _ hk.1]

theorem lookupKey_mergeFold_mem (cfg : List (String × List Json)) :
    (cfg.map Prod.fst).Nodup → ∀ h p, p ∈ cfg →
      lookupKey (mergeFold cfg h) p.1 = mergedPolicy (lookupKey h p.1) p.2 := by
  induction cfg with
  | nil => intro _ h p hp; cases hp
  | cons q rest ih =>
      intro hnd h p hp
      rw [List.map_cons, List.nodup_cons] at hnd
      rcases List.mem_cons.mp hp with rfl | hmem
      · rw [mergeFold, lookupKey_mergeFold_notMem rest _ _ hnd.1,
          lookupKey_mergeStep_self]
      · have hne : p.1 ≠ q.1 := by
          intro hcontra
          exact hnd.1 (hcontra ▸ List.mem_map_of_mem Prod.fst hmem)
        rw [mergeFold, ih hnd.2 _ _ hmem, lookupKey_mergeStep_ne _ _ _ hne]

theorem mergeFold_fixed (cfg : List (String × List Json)) :
    ∀ h, (∀ p ∈ cfg, ∃ a, lookupKey h p.1 = some (.arr a) ∧ hasOurHook a = true) →
      mergeFold cfg h = h := by
  induction cfg with
  | nil => intro h _; rfl
  | cons q rest ih =>
      intro h hfix
      obtain ⟨a, hl, ho⟩ := hfix q (List.mem_cons_self q rest)
      have hstep : mergeStep h q = h := by simp [mergeStep, hl, ho]
      rw [mergeFold, hstep, ih _ (fun p hp => hfix p (List.mem_cons_of_mem q hp))]

theorem mergeFold_post (cfg : List (String × List Json))
    (hnd : (cfg.map Prod.fst).Nodup)
    (hours : ∀ p ∈ cfg, hasOurHook p.2 = true) :
    ∀ h p, p ∈ cfg → ∃ a,
      lookupKey (mergeFold cfg h) p.1 = some (.arr a) ∧ hasOurHook a = true := by
  intro h p hp
  rw [lookupKey_mergeFold_mem cfg hnd h p hp]
  cases hl : lookupKey h p.1 with
  | none => exact ⟨p.2, rfl, hours p hp⟩
  | some v =>
      cases v
      case arr a =>
        by_cases ho : hasOurHook a
        · exact ⟨a, by simp [mergedPolicy, ho], ho⟩
        · refine ⟨a ++ p.2, by simp [mergedPolicy, ho], ?_⟩
          have hq := hours p hp
          simp only [hasOurHook, List.any_append] at hq ⊢
          simp [hq]
      all_goals exact ⟨p.2, rfl, hours p hp⟩

/-! ### Removal-loop lemmas -/

theorem lookupKey_pruneStep_ne (h : List (String × Json)) (p : String × List Json)
    (k : String) (hk : k ≠ p.1) :
    lookupKey (pruneStep h p) k = lookupKey h k := by
  cases hl : lookupKey h p.1 with
  | none => simp [pruneStep, hl]
  | some v =>
      cases v
      case arr a =>
        cases hf : removeOurHookEntries a with
        | nil => simp [pruneStep, hl, hf, lookupKey_delKey_ne _ _ _ hk]
        | cons x xs => simp [pruneStep, hl, hf, lookupKey_setKey_ne _ _ _ _ hk]
      all_goals simp [pruneStep, hl]

theorem lookupKey_pruneStep_self (h : List (String × Json)) (p : String × List Json) :
    lookupKey (pruneStep h p) p.1 = prunedPolicy (lookupKey h p.1) := by
  cases hl : lookupKey h p.1 with
  | none => simp [pruneStep, prunedPolicy, hl]
  | some v =>
      cases v
      case arr a =>
        cases hf : removeOurHookEntries a with
        | nil => simp [pruneStep, prunedPolicy, hl, hf, lookupKey_delKey_self]
        | cons x xs => simp [pruneStep, prunedPolicy, hl, hf, lookupKey_setKey_self]
      all_goals simp [pruneStep, prunedPolicy, hl]

theorem lookupKey_pruneFold_notMem (cfg : List (String × List Json)) :
    ∀ h k, k ∉ cfg.map Prod.fst →
      lookupKey (pruneFold cfg h) k = lookupKey h k := by
  induction cfg with
  | nil => intro h k _; rfl
  | cons q rest ih =>
      intro h k hk
      simp only [List.map_cons, List.mem_cons, not_or] at hk
      rw [pruneFold, ih _ _ hk.2, lookupKey_pruneStep_ne _ _ _ hk.1]

theorem lookupKey_pruneFold_mem (cfg : List (String × List Json)) :
    (cfg.map Prod.fst).Nodup → ∀ h p, p ∈ cfg →
      lookupKey (pruneFold cfg h) p.1 = prunedPolicy (lookupKey h p.1) := by
  induction cfg with
  | nil => intro _ h p hp; cases hp
  | cons q rest ih =>
      intro hnd h p hp
      rw [List.map_cons, List.nodup_cons] at hnd
      rcases List.mem_cons.mp hp with rfl | hmem
      · rw [pruneFold, lookupKey_pruneFold_notMem rest _ _ hnd.1,
          lookupKey_pruneStep_self]
      · have hne : p.1 ≠ q.1 := by
          intro hcontra
          exact hnd.1 (hcontra ▸ List.mem_map_of_mem Prod.fst hmem)
        rw [pruneFold, ih hnd.2 _ _ hmem, lookupKey_pruneStep_ne _ _ _ hne]

theorem pruneFold_fixed (cfg : List (String × List Json)) :
    ∀ h, (∀ p ∈ cfg, ∀ a, lookupKey h p.1 = some (.arr a) →
        removeOurHookEntries a = a ∧ a ≠ []) →
      pruneFold cfg h = h := by
  induction cfg with
  | nil => intro h _; rfl
  | cons q rest ih =>
      intro h hfix
      have hstep : pruneStep h q = h := by
        cases hl : lookupKey h q.1 with
        | none => simp [pruneStep, hl]
        | some v =>
            cases v
            case arr a =>
              obtain ⟨hfa, hne⟩ := hfix q (List.mem_cons_self q rest) a hl
              cases ha : a with
              | nil => exact absurd ha hne
              | cons x xs =>
                  subst ha
                  simp [pruneStep, hl, hfa, setKey_of_lookup_self h q.1 _ hl]
            all_goals simp [pruneStep, hl]
      rw [pruneFold, hstep, ih _ (fun p hp => hfix p (List.mem_cons_of_mem q hp))]

/-- After one pass of the removal loop, every catalog event either has
no array or holds a nonempty array of non-ours groups; a second pass is
then the identity. -/
theorem pruneFold_post (cfg : List (String × List Json))
    (hnd : (cfg.map Prod.fst).Nodup) (h : List (String × Json)) :
    ∀ p ∈ cfg, ∀ a, lookupKey (pruneFold cfg h) p.1 = some (.arr a) →
      removeOurHookEntries a = a ∧ a ≠ [] := by
  intro p hp a ha
  rw [lookupKey_pruneFold_mem cfg hnd h p hp] at ha
  cases hl : lookupKey h p.1 with
  | none => rw [hl] at ha; simp [prunedPolicy] at ha
  | some v =>
      rw [hl] at ha
      cases v
      case arr b =>
        cases hf : removeOurHookEntries b with
        | nil => simp [prunedPolicy, hf] at ha
        | cons x xs =>
            simp only [prunedPolicy, hf] at ha
            obtain rfl : x :: xs = a := by
              injection ha with ha'; injection ha'
            constructor
            · rw [← hf, removeOurHookEntries_idem, hf]
            · simp
      case null => simp [prunedPolicy] at ha
      case bool b => simp [prunedPolicy] at ha
      case num n => simp [prunedPolicy] at ha
      case str s => simp [prunedPolicy] at ha
      case obj f => simp [prunedPolicy] at ha

/-! ### Branch shapes of the two document transforms -/

theorem setupHooks_of_obj (d : List (String × Json)) (h : List (String × Json))
    (hl : lookupKey d "hooks" = some (.obj h)) :
    setupHooks d = some (setKey d "hooks" (.obj (mergeFold HOOKS_CONFIG h))) := by
  simp [setupHooks, hl, truthy]

theorem setupHooks_of_arr (d : List (String × Json)) (x : List Json)
    (hl : lookupKey d "hooks" = some (.arr x)) :
    setupHooks d = some d := by
  simp [setupHooks, hl, truthy]

theorem setupHooks_of_absent (d : List (String × Json))
    (hl : lookupKey d "hooks" = none) :
    setupHooks d =
      some (setKey d "hooks" (.obj (mergeFold HOOKS_CONFIG []))) := by
  simp [setupHooks, hl, truthy, lookupKey_setKey_self, setKey_setKey]

theorem setupHooks_of_falsy (d : List (String × Json)) (v : Json)
    (hl : lookupKey d "hooks" = some v) (ht : truthy v = false) :
    setupHooks d =
      some (setKey d "hooks" (.obj (mergeFold HOOKS_CONFIG []))) := by
  simp [setupHooks, hl, ht, lookupKey_setKey_self, setKey_setKey]

theorem removeHooks_of_none (d : List (String × Json))
    (hl : lookupKey d "hooks" = none) : removeHooks d = d := by
  simp [removeHooks, hl]

theorem removeHooks_of_falsy (d : List (String × Json)) (v : Json)
    (hl : lookupKey d "hooks" = some v) (ht : truthy v = false) :
    removeHooks d = d := by
  simp [removeHooks, hl, ht]

theorem removeHooks_of_obj (d : List (String × Json)) (h : List (String × Json))
    (hl : lookupKey d "hooks" = some (.obj h)) :
    removeHooks d =
      if (pruneFold HOOKS_CONFIG h).isEmpty then delKey d "hooks"
      else setKey d "hooks" (.obj (pruneFold HOOKS_CONFIG h)) := by
  simp [removeHooks, hl, truthy]

theorem removeHooks_of_arr (d : List (String × Json)) (x : List Json)
    (hl : lookupKey d "hooks" = some (.arr x)) :
    removeHooks d = if x.isEmpty then delKey d "hooks" else d := by
  simp [removeHooks, hl, truthy, jsKeysEmpty]

theorem removeHooks_of_prim (d : List (String × Json)) (v : Json)
    (hl : lookupKey d "hooks" = some v) (ht : truthy v = true)
    (hobj : ∀ h, v ≠ .obj h) (harr : ∀ x, v ≠ .arr x) :
    removeHooks d = if jsKeysEmpty v then delKey d "hooks" else d := by
  cases v
  case obj h => exact absurd rfl (hobj h)
  case arr x => exact absurd rfl (harr x)
  all_goals simp [removeHooks, hl, ht]

theorem setupHooks_of_prim (d : List (String × Json)) (v : Json)
    (hl : lookupKey d "hooks" = some v) (ht : truthy v = true)
    (hobj : ∀ h, v ≠ .obj h) (harr : ∀ x, v ≠ .arr x) :
    setupHooks d = none := by
  cases v
  case obj h => exact absurd rfl (hobj h)
  case arr x => exact absurd rfl (harr x)
  all_goals simp [setupHooks, hl, ht]

/-- The three possible outcomes of a successful merge, by the shape of
the document's hooks value: an object is merged into; a missing or
falsy value is first replaced by an empty object; an array survives
unchanged (its non-index properties are not serialized). -/
theorem setupHooks_shape (d D1 : List (String × Json))
    (hm : setupHooks d = some D1) :
    (∃ h, lookupKey d "hooks" = some (.obj h) ∧
        D1 = setKey d "hooks" (.obj (mergeFold HOOKS_CONFIG h))) ∨
    ((∀ v, lookupKey d "hooks" = some v → truthy v = false) ∧
        D1 = setKey d "hooks" (.obj (mergeFold HOOKS_CONFIG []))) ∨
    (∃ x, lookupKey d "hooks" = some (.arr x) ∧ D1 = d) := by
  rcases Option.eq_none_or_eq_some (lookupKey d "hooks") with hl | ⟨v, hl⟩
  · rw [setupHooks_of_absent d hl] at hm
    exact Or.inr (Or.inl ⟨(fun v hv => by rw [hl] at hv; exact Option.noConfusion hv),
      (Option.some_injective _ hm).symm⟩)
  · have falsy_case : truthy v = false →
        (∀ w, lookupKey d "hooks" = some w → truthy w = false) ∧
          D1 = setKey d "hooks" (.obj (mergeFold HOOKS_CONFIG [])) := by
      intro ht
      rw [setupHooks_of_falsy d v hl ht] at hm
      refine ⟨fun w hw => ?_, (Option.some_injective _ hm).symm⟩
      rw [hl] at hw
      rwa [← Option.some_injective _ hw]
    cases v
    case obj h =>
      rw [setupHooks_of_obj d h hl] at hm
      exact Or.inl ⟨h, hl, (Option.some_injective _ hm).symm⟩
    case arr x =>
      rw [setupHooks_of_arr d x hl] at hm
      exact Or.inr (Or.inr ⟨x, hl, (Option.some_injective _ hm).symm⟩)
    case null => exact Or.inr (Or.inl (falsy_case rfl))
    case bool b =>
      cases b
      · exact Or.inr (Or.inl (falsy_case rfl))
      · rw [setupHooks_of_prim d _ hl rfl
          (fun _ hh => Json.noConfusion hh) (fun _ hh => Json.noConfusion hh)] at hm
        exact absurd hm (by simp)
    case num n =>
      by_cases hn : n = 0
      · subst hn
        exact Or.inr (Or.inl (falsy_case rfl))
      · rw [setupHooks_of_prim d _ hl (by simp [truthy, hn])
          (fun _ hh => Json.noConfusion hh) (fun _ hh => Json.noConfusion hh)] at hm
        exact absurd hm (by simp)
    case str s =>
      by_cases hs : s = ""
      · subst hs
        exact Or.inr (Or.inl (falsy_case rfl))
      · rw [setupHooks_of_prim d _ hl (by simp [truthy, hs])
          (fun _ hh => Json.noConfusion hh) (fun _ hh => Json.noConfusion hh)] at hm
        exact absurd hm (by simp)

/-! ### Reading events through the document wrappers -/

theorem eventValue_of_obj (d : List (String × Json)) (h : List (String × Json))
    (hl : lookupKey d "hooks" = some (.obj h)) (e : String) :
    eventValue d e = lookupKey h e := by
  simp [eventValue, hl]

theorem eventValue_setKey_obj (d : List (String × Json))
    (h : List (String × Json)) (e : String) :
    eventValue (setKey d "hooks" (.obj h)) e = lookupKey h e := by
  simp [eventValue, lookupKey_setKey_self]

theorem eventValue_delKey (d : List (String × Json)) (e : String) :
    eventValue (delKey d "hooks") e = none := by
  simp [eventValue, lookupKey_delKey_self]

theorem eventValue_of_not_obj (d : List (String × Json))
    (hno : ∀ h, lookupKey d "hooks" ≠ some (.obj h)) (e : String) :
    eventValue d e = none := by
  unfold eventValue
  cases hl : lookupKey d "hooks" with
  | none => rfl
  | some v =>
      cases v
      case obj h => exact absurd hl (hno h)
      all_goals rfl

theorem eventValue_of_falsy (d : List (String × Json))
    (hfal : ∀ v, lookupKey d "hooks" = some v → truthy v = false) (e : String) :
    eventValue d e = none := by
  refine eventValue_of_not_obj d (fun h hh => ?_) e
  have := hfal _ hh
  simp [truthy] at this

/-- Unpacking a present event value: the hooks section must be an
object holding it. -/
theorem eventValue_some (d : List (String × Json)) (e : String) (v : Json)
    (hv : eventValue d e = some v) :
    ∃ h, lookupKey d "hooks" = some (.obj h) ∧ lookupKey h e = some v := by
  unfold eventValue at hv
  cases hl : lookupKey d "hooks" with
  | none => rw [hl] at hv; cases hv
  | some w =>
      rw [hl] at hv
      cases w
      case obj h => exact ⟨h, rfl, hv⟩
      all_goals cases hv

/-! ### One full pass of each loop is a fixed point of a second pass -/

theorem mergeFold_idem (h : List (String × Json)) :
    mergeFold HOOKS_CONFIG (mergeFold HOOKS_CONFIG h) = mergeFold HOOKS_CONFIG h :=
  mergeFold_fixed HOOKS_CONFIG _
    (mergeFold_post HOOKS_CONFIG catalogEvents_nodup catalog_hasOurHook h)

theorem pruneFold_idem (h : List (String × Json)) :
    pruneFold HOOKS_CONFIG (pruneFold HOOKS_CONFIG h) = pruneFold HOOKS_CONFIG h :=
  pruneFold_fixed HOOKS_CONFIG _
    (pruneFold_post HOOKS_CONFIG catalogEvents_nodup h)

/-- Any document produced by the merge transform is a fixed point of it. -/
theorem setupHooks_result (d D1 : List (String × Json))
    (hm : setupHooks d = some D1) : setupHooks D1 = some D1 := by
  have fix_of_obj : ∀ h₀,
      D1 = setKey d "hooks" (.obj (mergeFold HOOKS_CONFIG h₀)) →
      setupHooks D1 = some D1 := by
    intro h₀ hD
    have hl1 : lookupKey D1 "hooks" = some (.obj (mergeFold HOOKS_CONFIG h₀)) := by
      rw [hD]; exact lookupKey_setKey_self d "hooks" _
    rw [setupHooks_of_obj D1 _ hl1, mergeFold_idem,
      setKey_of_lookup_self D1 "hooks" _ hl1]
  cases hl : lookupKey d "hooks" with
  | none =>
      rw [setupHooks_of_absent d hl] at hm
      exact fix_of_obj [] (Option.some_injective _ hm).symm
  | some v =>
      cases v
      case obj h =>
        rw [setupHooks_of_obj d h hl] at hm
        exact fix_of_obj h (Option.some_injective _ hm).symm
      case arr x =>
        rw [setupHooks_of_arr d x hl] at hm
        obtain rfl : d = D1 := Option.some_injective _ hm
        exact setupHooks_of_arr d x hl
      case null =>
        rw [setupHooks_of_falsy d _ hl rfl] at hm
        exact fix_of_obj [] (Option.some_injective _ hm).symm
      case bool b =>
        cases b
        · rw [setupHooks_of_falsy d _ hl rfl] at hm
          exact fix_of_obj [] (Option.some_injective _ hm).symm
        · rw [setupHooks_of_prim d _ hl rfl
            (fun _ hh => Json.noConfusion hh) (fun _ hh => Json.noConfusion hh)] at hm
          exact absurd hm (by simp)
      case num n =>
        by_cases hn : n = 0
        · subst hn
          rw [setupHooks_of_falsy d _ hl rfl] at hm
          exact fix_of_obj [] (Option.some_injective _ hm).symm
        · rw [setupHooks_of_prim d _ hl (by simp [truthy, hn])
            (fun _ hh => Json.noConfusion hh) (fun _ hh => Json.noConfusion hh)] at hm
          exact absurd hm (by simp)
      case str s =>
        by_cases hs : s = ""
        · subst hs
          rw [setupHooks_of_falsy d _ hl rfl] at hm
          exact fix_of_obj [] (Option.some_injective _ hm).symm
        · rw [setupHooks_of_prim d _ hl (by simp [truthy, hs])
            (fun _ hh => Json.noConfusion hh) (fun _ hh => Json.noConfusion hh)] at hm
          exact absurd hm (by simp)

/-- Claim C2: merge is idempotent: for every settings document `d`, applying
the merge transform of `setupHooks` twice yields the same document as
applying it once (composition through `Option.bind`, since the
transform can fail; a failing merge stays failed). -/
theorem C2_merge_idempotent (d : List (String × Json)) :
    (setupHooks d).bind setupHooks = setupHooks d := by
  cases hm : setupHooks d with
  | none => rfl
  | some D1 => exact setupHooks_result d D1 hm

/-- Claim C10: prune is idempotent: for every settings document `d`,
applying the prune transform of `removeHooks` twice yields the same
document as applying it once. -/
theorem C10_prune_idempotent (d : List (String × Json)) :
    removeHooks (removeHooks d) = removeHooks d := by
  cases hl : lookupKey d "hooks" with
  | none =>
      rw [removeHooks_of_none d hl]
      exact removeHooks_of_none d hl
  | some v =>
      have prim_case : truthy v = true → (∀ h, v ≠ .obj h) → (∀ x, v ≠ .arr x) →
          removeHooks (removeHooks d) = removeHooks d := by
        intro ht hobj harr
        rw [removeHooks_of_prim d v hl ht hobj harr]
        by_cases hj : jsKeysEmpty v = true
        · rw [if_pos hj]
          exact removeHooks_of_none _ (lookupKey_delKey_self d "hooks")
        · rw [if_neg hj, removeHooks_of_prim d v hl ht hobj harr, if_neg hj]
      cases v
      case obj h =>
        rw [removeHooks_of_obj d h hl]
        by_cases he : (pruneFold HOOKS_CONFIG h).isEmpty = true
        · rw [if_pos he]
          exact removeHooks_of_none _ (lookupKey_delKey_self d "hooks")
        · rw [if_neg he]
          have hl1 : lookupKey (setKey d "hooks" (.obj (pruneFold HOOKS_CONFIG h)))
              "hooks" = some (.obj (pruneFold HOOKS_CONFIG h)) :=
            lookupKey_setKey_self d "hooks" _
          rw [removeHooks_of_obj _ _ hl1, pruneFold_idem, if_neg he]
          exact setKey_of_lookup_self _ "hooks" _ hl1
      case arr x =>
        rw [removeHooks_of_arr d x hl]
        by_cases hx : x.isEmpty = true
        · rw [if_pos hx]
          exact removeHooks_of_none _ (lookupKey_delKey_self d "hooks")
        · rw [if_neg hx, removeHooks_of_arr d x hl, if_neg hx]
      case null =>
        rw [removeHooks_of_falsy d _ hl rfl]
        exact removeHooks_of_falsy d _ hl rfl
      case bool b =>
        cases b
        · rw [removeHooks_of_falsy d _ hl rfl]
          exact removeHooks_of_falsy d _ hl rfl
        · exact prim_case rfl (fun _ hh => Json.noConfusion hh)
            (fun _ hh => Json.noConfusion hh)
      case num n =>
        by_cases hn : n = 0
        · subst hn
          rw [removeHooks_of_falsy d _ hl rfl]
          exact removeHooks_of_falsy d _ hl rfl
        · exact prim_case (by simp [truthy, hn])
            (fun _ hh => Json.noConfusion hh) (fun _ hh => Json.noConfusion hh)
      case str s =>
        by_cases hs : s = ""
        · subst hs
          rw [removeHooks_of_falsy d _ hl rfl]
          exact removeHooks_of_falsy d _ hl rfl
        · exact prim_case (by simp [truthy, hs])
            (fun _ hh => Json.noConfusion hh) (fun _ hh => Json.noConfusion hh)

/-! ### Non-interference helpers -/

theorem setupHooks_foreign (d D1 : List (String × Json))
    (hm : setupHooks d = some D1) :
    ∀ k, k ≠ "hooks" → lookupKey D1 k = lookupKey d k := by
  intro k hk
  rcases setupHooks_shape d D1 hm with ⟨h, _, rfl⟩ | ⟨_, rfl⟩ | ⟨x, _, rfl⟩
  · exact lookupKey_setKey_ne d "hooks" k _ hk
  · exact lookupKey_setKey_ne d "hooks" k _ hk
  · rfl

theorem removeHooks_foreign (d : List (String × Json)) :
    ∀ k, k ≠ "hooks" → lookupKey (removeHooks d) k = lookupKey d k := by
  intro k hk
  rcases Option.eq_none_or_eq_some (lookupKey d "hooks") with hl | ⟨v, hl⟩
  · rw [removeHooks_of_none d hl]
  · by_cases ht : truthy v = true
    case neg => rw [removeHooks_of_falsy d v hl (Bool.eq_false_iff.mpr ht)]
    case pos =>
      have prim : (∀ h, v ≠ Json.obj h) → (∀ x, v ≠ Json.arr x) →
          lookupKey (removeHooks d) k = lookupKey d k := by
        intro hobj harr
        rw [removeHooks_of_prim d v hl ht hobj harr]
        by_cases hj : jsKeysEmpty v = true
        · rw [if_pos hj]; exact lookupKey_delKey_ne d "hooks" k hk
        · rw [if_neg hj]
      cases v
      case obj h =>
        rw [removeHooks_of_obj d h hl]
        by_cases he : (pruneFold HOOKS_CONFIG h).isEmpty = true
        · rw [if_pos he]; exact lookupKey_delKey_ne d "hooks" k hk
        · rw [if_neg he]; exact lookupKey_setKey_ne d "hooks" k _ hk
      case arr x =>
        rw [removeHooks_of_arr d x hl]
        by_cases hx : x.isEmpty = true
        · rw [if_pos hx]; exact lookupKey_delKey_ne d "hooks" k hk
        · rw [if_neg hx]
      all_goals exact prim (fun _ hh => Json.noConfusion hh) (fun _ hh => Json.noConfusion hh)

theorem setupHooks_nonOurs (d D1 : List (String × Json))
    (hm : setupHooks d = some D1) :
    ∀ e, nonOursAt D1 e = nonOursAt d e := by
  intro e
  rcases setupHooks_shape d D1 hm with ⟨h, hl, rfl⟩ | ⟨hfal, rfl⟩ | ⟨x, hl, rfl⟩
  · unfold nonOursAt
    rw [eventValue_setKey_obj, eventValue_of_obj d h hl]
    by_cases he : e ∈ HOOKS_CONFIG.map Prod.fst
    · obtain ⟨p, hp, rfl⟩ := List.mem_map.mp he
      rw [lookupKey_mergeFold_mem HOOKS_CONFIG catalogEvents_nodup h p hp]
      rcases Option.eq_none_or_eq_some (lookupKey h p.1) with hlh | ⟨w, hlh⟩
      · rw [hlh]
        simp [mergedPolicy, catalog_removeOurs_nil p hp]
      · rw [hlh]
        cases w with
        | arr a =>
            by_cases ho : hasOurHook a = true
            · simp [mergedPolicy, ho]
            · simp [mergedPolicy, ho, removeOurHookEntries_append,
                catalog_removeOurs_nil p hp]
        | null => simp [mergedPolicy, catalog_removeOurs_nil p hp]
        | bool b => simp [mergedPolicy, catalog_removeOurs_nil p hp]
        | num n => simp [mergedPolicy, catalog_removeOurs_nil p hp]
        | str st => simp [mergedPolicy, catalog_removeOurs_nil p hp]
        | obj f => simp [mergedPolicy, catalog_removeOurs_nil p hp]
    · rw [lookupKey_mergeFold_notMem HOOKS_CONFIG h e he]
  · unfold nonOursAt
    rw [eventValue_setKey_obj, eventValue_of_falsy d hfal e]
    by_cases he : e ∈ HOOKS_CONFIG.map Prod.fst
    · obtain ⟨p, hp, rfl⟩ := List.mem_map.mp he
      rw [lookupKey_mergeFold_mem HOOKS_CONFIG catalogEvents_nodup [] p hp]
      simp [lookupKey, mergedPolicy, catalog_removeOurs_nil p hp]
    · rw [lookupKey_mergeFold_notMem HOOKS_CONFIG [] e he]
      rfl
  · rfl

theorem removeHooks_nonOurs (d : List (String × Json)) :
    ∀ e, nonOursAt (removeHooks d) e = nonOursAt d e := by
  intro e
  rcases Option.eq_none_or_eq_some (lookupKey d "hooks") with hl | ⟨v, hl⟩
  · rw [removeHooks_of_none d hl]
  · by_cases ht : truthy v = true
    case neg => rw [removeHooks_of_falsy d v hl (Bool.eq_false_iff.mpr ht)]
    case pos =>
      have side_nil : (∀ h, v ≠ Json.obj h) → nonOursAt d e = [] := by
        intro hobj
        unfold nonOursAt
        rw [eventValue_of_not_obj d
          (fun h hh => by
            rw [hl] at hh
            exact hobj h (Option.some_injective _ hh)) e]
      have prim : (∀ h, v ≠ Json.obj h) → (∀ x, v ≠ Json.arr x) →
          nonOursAt (removeHooks d) e = nonOursAt d e := by
        intro hobj harr
        rw [removeHooks_of_prim d v hl ht hobj harr]
        by_cases hj : jsKeysEmpty v = true
        · rw [if_pos hj, side_nil hobj]
          unfold nonOursAt
          rw [eventValue_delKey]
        · rw [if_neg hj]
      cases v
      case obj h =>
        rw [removeHooks_of_obj d h hl]
        unfold nonOursAt
        rw [eventValue_of_obj d h hl]
        by_cases hemp : (pruneFold HOOKS_CONFIG h).isEmpty = true
        · rw [if_pos hemp, eventValue_delKey]
          have h2nil : pruneFold HOOKS_CONFIG h = [] := List.isEmpty_iff.mp hemp
          by_cases he : e ∈ HOOKS_CONFIG.map Prod.fst
          · obtain ⟨p, hp, rfl⟩ := List.mem_map.mp he
            have hp3 := lookupKey_pruneFold_mem HOOKS_CONFIG catalogEvents_nodup h p hp
            rw [h2nil] at hp3
            simp only [lookupKey] at hp3
            rcases Option.eq_none_or_eq_some (lookupKey h p.1) with hlh | ⟨w, hlh⟩
            · rw [hlh]
            · rw [hlh] at hp3 ⊢
              cases w with
              | arr a =>
                  cases hf : removeOurHookEntries a with
                  | nil => simp [hf]
                  | cons y ys => simp [prunedPolicy, hf] at hp3
              | null => simp [prunedPolicy] at hp3
              | bool b => simp [prunedPolicy] at hp3
              | num n => simp [prunedPolicy] at hp3
              | str st => simp [prunedPolicy] at hp3
              | obj f => simp [prunedPolicy] at hp3
          · have hne := lookupKey_pruneFold_notMem HOOKS_CONFIG h e he
            rw [h2nil] at hne
            simp only [lookupKey] at hne
            rw [← hne]
        · rw [if_neg hemp, eventValue_setKey_obj]
          by_cases he : e ∈ HOOKS_CONFIG.map Prod.fst
          · obtain ⟨p, hp, rfl⟩ := List.mem_map.mp he
            rw [lookupKey_pruneFold_mem HOOKS_CONFIG catalogEvents_nodup h p hp]
            rcases Option.eq_none_or_eq_some (lookupKey h p.1) with hlh | ⟨w, hlh⟩
            · rw [hlh]; rfl
            · rw [hlh]
              cases w with
              | arr a =>
                  cases hf : removeOurHookEntries a with
                  | nil => simp [prunedPolicy, hf]
                  | cons y ys =>
                      simp only [prunedPolicy, hf]
                      rw [← hf, removeOurHookEntries_idem]
              | null => simp [prunedPolicy]
              | bool b => simp [prunedPolicy]
              | num n => simp [prunedPolicy]
              | str st => simp [prunedPolicy]
              | obj f => simp [prunedPolicy]
          · rw [lookupKey_pruneFold_notMem HOOKS_CONFIG h e he]
      case arr x =>
        rw [removeHooks_of_arr d x hl]
        have hside := side_nil (fun _ hh => Json.noConfusion hh)
        by_cases hx : x.isEmpty = true
        · rw [if_pos hx, hside]
          unfold nonOursAt
          rw [eventValue_delKey]
        · rw [if_neg hx]
      all_goals exact prim (fun _ hh => Json.noConfusion hh) (fun _ hh => Json.noConfusion hh)

/-- The merged document agrees with the original on the whole
subsequence of foreign (non-`hooks`) top-level pairs, in content and
relative order: `delKey · "hooks"` is exactly that subsequence. -/
theorem setupHooks_foreign_subseq (d D1 : List (String × Json))
    (hm : setupHooks d = some D1) :
    delKey D1 "hooks" = delKey d "hooks" := by
  rcases setupHooks_shape d D1 hm with ⟨h, _, rfl⟩ | ⟨_, rfl⟩ | ⟨x, _, rfl⟩
  · exact delKey_setKey d "hooks" _
  · exact delKey_setKey d "hooks" _
  · rfl

/-- The pruned document agrees with the original on the whole
subsequence of foreign (non-`hooks`) top-level pairs, for every
document — `removeHooks` only ever rewrites or deletes the `hooks`
key. -/
theorem removeHooks_foreign_subseq (d : List (String × Json)) :
    delKey (removeHooks d) "hooks" = delKey d "hooks" := by
  rcases Option.eq_none_or_eq_some (lookupKey d "hooks") with hl | ⟨v, hl⟩
  · rw [removeHooks_of_none d hl]
  · by_cases ht : truthy v = true
    case neg => rw [removeHooks_of_falsy d v hl (Bool.eq_false_iff.mpr ht)]
    case pos =>
      have prim : (∀ h, v ≠ Json.obj h) → (∀ x, v ≠ Json.arr x) →
          delKey (removeHooks d) "hooks" = delKey d "hooks" := by
        intro hobj harr
        rw [removeHooks_of_prim d v hl ht hobj harr]
        by_cases hj : jsKeysEmpty v = true
        · rw [if_pos hj]
          exact delKey_delKey d "hooks"
        · rw [if_neg hj]
      cases v
      case obj h =>
        rw [removeHooks_of_obj d h hl]
        by_cases he : (pruneFold HOOKS_CONFIG h).isEmpty = true
        · rw [if_pos he]
          exact delKey_delKey d "hooks"
        · rw [if_neg he]
          exact delKey_setKey d "hooks" _
      case arr x =>
        rw [removeHooks_of_arr d x hl]
        by_cases hx : x.isEmpty = true
        · rw [if_pos hx]
          exact delKey_delKey d "hooks"
        · rw [if_neg hx]
      all_goals exact prim (fun _ hh => Json.noConfusion hh) (fun _ hh => Json.noConfusion hh)

/-- Claim C3: non-interference.  For every document `d`: the prune
transform leaves the whole subsequence of foreign top-level pairs
(every key other than `hooks`, extracted in place by `delKey · "hooks"`)
identical in content and relative order, and leaves, at every event
name, the subsequence of non-ours hook groups identical in content and
relative order; and whenever the merge transform succeeds, its result
satisfies the same two preservations. -/
theorem C3_noninterference (d : List (String × Json)) :
    (∀ D1, setupHooks d = some D1 →
        delKey D1 "hooks" = delKey d "hooks" ∧
        ∀ e, nonOursAt D1 e = nonOursAt d e) ∧
    delKey (removeHooks d) "hooks" = delKey d "hooks" ∧
    (∀ e, nonOursAt (removeHooks d) e = nonOursAt d e) :=
  ⟨fun D1 hm => ⟨setupHooks_foreign_subseq d D1 hm, setupHooks_nonOurs d D1 hm⟩,
    removeHooks_foreign_subseq d, removeHooks_nonOurs d⟩

/-- Witness for C3 at concrete documents: after merging `docB`, the
foreign pair subsequence is exactly the original `theme` pair; the
user's group under `Stop` survives prune; and on a document whose hooks
value is the truthy primitive `5` (where merge throws), prune still
preserves the foreign pair subsequence. -/
theorem C3_witness :
    delKey docB1 "hooks" = [("theme", Json.str "dark")] ∧
    nonOursAt (removeHooks docB) "Stop" = [userGroup] ∧
    delKey (removeHooks [("theme", Json.str "dark"), ("hooks", Json.num 5)])
      "hooks" = [("theme", Json.str "dark")] := by
  refine ⟨?_, ?_, ?_⟩
  · rw [((C3_noninterference docB).1 docB1 rfl).1]
    rfl
  · rw [(C3_noninterference docB).2.2 "Stop"]
    rfl
  · rw [(C3_noninterference [("theme", Json.str "dark"),
      ("hooks", Json.num 5)]).2.1]
    rfl

/-- Claim C1, amended: round-trip: for a successful merge, pruning the
merged document leaves, at every catalog event, exactly the original
subsequence of non-ours groups (the event key absent when that
subsequence is empty, also when the original value was not an array of
groups), while every non-catalog event keeps its original value — even
when all of its groups are ours. -/
theorem C1_roundtrip (d D1 : List (String × Json))
    (hm : setupHooks d = some D1) (e : String) :
    (e ∈ catalogEvents →
        eventValue (removeHooks D1) e = roundPolicy (eventValue d e)) ∧
    (e ∉ catalogEvents →
        eventValue (removeHooks D1) e = eventValue d e) := by
  rcases setupHooks_shape d D1 hm with ⟨h, hl, rfl⟩ | ⟨hfal, rfl⟩ | ⟨x, hl, rfl⟩
  · have hl1 : lookupKey (setKey d "hooks" (.obj (mergeFold HOOKS_CONFIG h)))
        "hooks" = some (.obj (mergeFold HOOKS_CONFIG h)) :=
      lookupKey_setKey_self d "hooks" _
    rw [removeHooks_of_obj _ _ hl1]
    by_cases hemp :
        (pruneFold HOOKS_CONFIG (mergeFold HOOKS_CONFIG h)).isEmpty = true
    · rw [if_pos hemp]
      have h2nil : pruneFold HOOKS_CONFIG (mergeFold HOOKS_CONFIG h) = [] :=
        List.isEmpty_iff.mp hemp
      constructor
      · intro hecat
        obtain ⟨p, hp, rfl⟩ := List.mem_map.mp hecat
        rw [eventValue_delKey, eventValue_of_obj d h hl]
        have hp3 := lookupKey_pruneFold_mem HOOKS_CONFIG catalogEvents_nodup
          (mergeFold HOOKS_CONFIG h) p hp
        rw [h2nil] at hp3
        simp only [lookupKey] at hp3
        rw [lookupKey_mergeFold_mem HOOKS_CONFIG catalogEvents_nodup h p hp] at hp3
        rcases Option.eq_none_or_eq_some (lookupKey h p.1) with hlh | ⟨w, hlh⟩
        · rw [hlh]
          rfl
        · rw [hlh] at hp3 ⊢
          cases w with
          | arr a =>
              by_cases ho : hasOurHook a = true
              · simp only [mergedPolicy, ho, if_true] at hp3
                cases hf : removeOurHookEntries a with
                | nil => simp [roundPolicy, hf]
                | cons y ys => simp [prunedPolicy, hf] at hp3
              · simp only [mergedPolicy, ho, if_false] at hp3
                have happ : removeOurHookEntries (a ++ p.2) =
                    removeOurHookEntries a := by
                  rw [removeOurHookEntries_append, catalog_removeOurs_nil p hp,
                    List.append_nil]
                cases hf : removeOurHookEntries a with
                | nil => simp [roundPolicy, hf]
                | cons y ys => simp [prunedPolicy, happ, hf] at hp3
          | null => rfl
          | bool b => rfl
          | num n => rfl
          | str st => rfl
          | obj f => rfl
      · intro henot
        rw [eventValue_delKey, eventValue_of_obj d h hl]
        have hne := lookupKey_pruneFold_notMem HOOKS_CONFIG
          (mergeFold HOOKS_CONFIG h) e henot
        rw [h2nil] at hne
        simp only [lookupKey] at hne
        rw [lookupKey_mergeFold_notMem HOOKS_CONFIG h e henot] at hne
        exact hne
    · rw [if_neg hemp]
      constructor
      · intro hecat
        obtain ⟨p, hp, rfl⟩ := List.mem_map.mp hecat
        rw [eventValue_setKey_obj, eventValue_of_obj d h hl,
          lookupKey_pruneFold_mem HOOKS_CONFIG catalogEvents_nodup _ p hp,
          lookupKey_mergeFold_mem HOOKS_CONFIG catalogEvents_nodup h p hp]
        rcases Option.eq_none_or_eq_some (lookupKey h p.1) with hlh | ⟨w, hlh⟩
        · rw [hlh]
          simp [mergedPolicy, prunedPolicy, roundPolicy, catalog_removeOurs_nil p hp]
        · rw [hlh]
          cases w with
          | arr a =>
              by_cases ho : hasOurHook a = true
              · simp only [mergedPolicy, ho, if_true]
                cases hf : removeOurHookEntries a with
                | nil => simp [prunedPolicy, roundPolicy, hf]
                | cons y ys => simp [prunedPolicy, roundPolicy, hf]
              · simp only [mergedPolicy, ho, if_false]
                have happ : removeOurHookEntries (a ++ p.2) =
                    removeOurHookEntries a := by
                  rw [removeOurHookEntries_append, catalog_removeOurs_nil p hp,
                    List.append_nil]
                cases hf : removeOurHookEntries a with
                | nil => simp [prunedPolicy, roundPolicy, happ, hf]
                | cons y ys => simp [prunedPolicy, roundPolicy, happ, hf]
          | null => simp [mergedPolicy, prunedPolicy, roundPolicy,
              catalog_removeOurs_nil p hp]
          | bool b => simp [mergedPolicy, prunedPolicy, roundPolicy,
              catalog_removeOurs_nil p hp]
          | num n => simp [mergedPolicy, prunedPolicy, roundPolicy,
              catalog_removeOurs_nil p hp]
          | str st => simp [mergedPolicy, prunedPolicy, roundPolicy,
              catalog_removeOurs_nil p hp]
          | obj f => simp [mergedPolicy, prunedPolicy, roundPolicy,
              catalog_removeOurs_nil p hp]
      · intro henot
        rw [eventValue_setKey_obj, eventValue_of_obj d h hl,
          lookupKey_pruneFold_notMem HOOKS_CONFIG _ e henot,
          lookupKey_mergeFold_notMem HOOKS_CONFIG h e henot]
  · have hl1 : lookupKey (setKey d "hooks" (.obj (mergeFold HOOKS_CONFIG [])))
        "hooks" = some (.obj (mergeFold HOOKS_CONFIG [])) :=
      lookupKey_setKey_self d "hooks" _
    rw [removeHooks_of_obj _ _ hl1]
    have hemp : (pruneFold HOOKS_CONFIG (mergeFold HOOKS_CONFIG [])).isEmpty
        = true := rfl
    rw [if_pos hemp]
    have hdnone := eventValue_of_falsy d hfal
    constructor
    · intro _
      rw [eventValue_delKey, hdnone e]
      rfl
    · intro _
      rw [eventValue_delKey, hdnone e]
  · have hdnone : ∀ e', eventValue D1 e' = none := by
      intro e'
      exact eventValue_of_not_obj D1
        (fun h' hh => by
          rw [hl] at hh
          exact Json.noConfusion (Option.some_injective _ hh)) e'
    by_cases hx : x.isEmpty = true
    · rw [removeHooks_of_arr D1 x hl, if_pos hx]
      constructor
      · intro _
        rw [eventValue_delKey, hdnone e]
        rfl
      · intro _
        rw [eventValue_delKey, hdnone e]
    · rw [removeHooks_of_arr D1 x hl, if_neg hx]
      constructor
      · intro _
        rw [hdnone e]
        rfl
      · intro _
        rfl

/-- Counterexample to C1 as stated: for the NON-catalog event `Foo`
holding only our canonical group, `prune(merge(d))` keeps the event
(prune only visits catalog events), although its original sequence
contains no non-ours groups — so "every event whose original sequence
contained no non-ours groups is absent" fails. -/
theorem C1_counterexample :
    setupHooks docFoo = some docFoo1 ∧
    removeOurHookEntries [ourPlainGroup] = [] ∧
    eventValue (removeHooks docFoo1) "Foo" = some (Json.arr [ourPlainGroup]) :=
  ⟨rfl, rfl, rfl⟩

/-- Witness for C1 at a concrete document: the user's group under
`Stop` survives the full merge-then-prune round trip. -/
theorem C1_witness :
    eventValue (removeHooks docB1) "Stop" = some (Json.arr [userGroup]) := by
  have h := (C1_roundtrip docB docB1 rfl "Stop").1 (by decide)
  rw [h]
  rfl

/-- Claim C5, amended: merge per-event policy: for a successful merge on a
document whose hooks value is not a JSON array (absent, falsy or an
object), each catalog event receives exactly the spec's merge policy:
the canonical sequence where no array existed, the unchanged array
where the loose check finds our hook, and the array with the canonical
sequence appended otherwise. -/
theorem C5_merge_policy (d D1 : List (String × Json))
    (hm : setupHooks d = some D1)
    (hnoarr : ∀ x, lookupKey d "hooks" ≠ some (Json.arr x)) :
    ∀ p ∈ HOOKS_CONFIG, eventValue D1 p.1 = mergedPolicy (eventValue d p.1) p.2 := by
  intro p hp
  rcases setupHooks_shape d D1 hm with ⟨h, hl, rfl⟩ | ⟨hfal, rfl⟩ | ⟨x, hl, rfl⟩
  · rw [eventValue_setKey_obj, eventValue_of_obj d h hl]
    exact lookupKey_mergeFold_mem HOOKS_CONFIG catalogEvents_nodup h p hp
  · rw [eventValue_setKey_obj, eventValue_of_falsy d hfal p.1,
      lookupKey_mergeFold_mem HOOKS_CONFIG catalogEvents_nodup [] p hp]
    rfl
  · exact absurd hl (hnoarr x)

/-- Counterexample to C5 as stated: on a document whose hooks value is
a JSON array, the merge writes only non-index properties of that array,
which serialization drops, so the resulting document has no array at
`hooks.UserPromptSubmit` although the policy demands the canonical
sequence there. -/
theorem C5_counterexample :
    setupHooks docArrE = some docArrE ∧
    eventValue docArrE "UserPromptSubmit" = none ∧
    ("UserPromptSubmit", [ourPlainGroup]) ∈ HOOKS_CONFIG ∧
    mergedPolicy (eventValue docArrE "UserPromptSubmit") [ourPlainGroup] =
      some (Json.arr [ourPlainGroup]) :=
  ⟨rfl, rfl, List.Mem.head _, rfl⟩

/-- Witness for C5 at a concrete document: merging a document whose
`Stop` array holds one user group appends our canonical group. -/
theorem C5_witness :
    eventValue docB1 "Stop" = some (Json.arr [userGroup, ourPlainGroup]) := by
  have h := C5_merge_policy docB docB1 rfl
    (fun x hh => by
      rw [show lookupKey docB "hooks" =
        some (Json.obj [("Stop", Json.arr [userGroup])]) from rfl] at hh
      exact Json.noConfusion (Option.some_injective _ hh))
    ("Stop", [ourPlainGroup])
    (List.Mem.tail _ (List.Mem.tail _ (List.Mem.head _)))
  rw [h]
  rfl

/-- Claim C6, amended: no duplication: if a catalog event's array already
contains our canonical group, one or two merges leave that event's
array exactly as it was — in particular the number of strictly-ours
groups there is unchanged, so a document with exactly one our-group
keeps exactly one, and merge never inserts our canonical group where it
is already present. -/
theorem C6_no_duplication (d D1 D2 : List (String × Json))
    (p : String × List Json) (a : List Json) (g : Json)
    (hp : p ∈ HOOKS_CONFIG)
    (h1 : setupHooks d = some D1) (h2 : setupHooks D1 = some D2)
    (ha : eventValue d p.1 = some (Json.arr a))
    (hg : g ∈ p.2) (hmem : g ∈ a) :
    eventValue D1 p.1 = some (Json.arr a) ∧
    eventValue D2 p.1 = some (Json.arr a) ∧
    oursCount D2 p.1 = oursCount d p.1 := by
  obtain ⟨h, hl, hlh⟩ := eventValue_some d p.1 (Json.arr a) ha
  have hour : hasOurHook a = true :=
    List.any_eq_true.mpr ⟨g, hmem, catalog_groups_have_our p hp g hg⟩
  rw [setupHooks_of_obj d h hl] at h1
  obtain rfl := Option.some_injective _ h1
  have hin : lookupKey (mergeFold HOOKS_CONFIG h) p.1 = some (Json.arr a) := by
    rw [lookupKey_mergeFold_mem HOOKS_CONFIG catalogEvents_nodup h p hp, hlh]
    simp [mergedPolicy, hour]
  have hl2 : lookupKey (setKey d "hooks" (.obj (mergeFold HOOKS_CONFIG h)))
      "hooks" = some (.obj (mergeFold HOOKS_CONFIG h)) :=
    lookupKey_setKey_self d "hooks" _
  rw [setupHooks_of_obj _ _ hl2] at h2
  obtain rfl := Option.some_injective _ h2
  have hin2 : lookupKey (mergeFold HOOKS_CONFIG (mergeFold HOOKS_CONFIG h)) p.1
      = some (Json.arr a) := by
    rw [lookupKey_mergeFold_mem HOOKS_CONFIG catalogEvents_nodup _ p hp, hin]
    simp [mergedPolicy, hour]
  refine ⟨?_, ?_, ?_⟩
  · rw [eventValue_setKey_obj]
    exact hin
  · rw [eventValue_setKey_obj]
    exact hin2
  · unfold oursCount
    rw [eventValue_setKey_obj, hin2, ha]

/-- Counterexample to C6 as stated: a document that already contains
our canonical group for `Stop` TWICE still "contains our canonical
group", yet after applying merge twice the event holds two strictly-
ours groups, not exactly one. -/
theorem C6_counterexample :
    (setupHooks docTwo).bind setupHooks = some docTwo2 ∧
    eventValue docTwo "Stop" = some (Json.arr [ourPlainGroup, ourPlainGroup]) ∧
    oursCount docTwo2 "Stop" = 2 ∧ oursCount docTwo2 "Stop" ≠ 1 :=
  ⟨rfl, rfl, rfl, by decide⟩

/-- Witness for C6 at a concrete document with exactly one copy of our
canonical group under `Stop`: two merges leave exactly one our-group. -/
theorem C6_witness :
    eventValue docOne2 "Stop" = some (Json.arr [userGroup, ourPlainGroup]) ∧
    oursCount docOne2 "Stop" = 1 := by
  have h := C6_no_duplication docOne docOne1 docOne2 ("Stop", [ourPlainGroup])
    [userGroup, ourPlainGroup] ourPlainGroup
    (List.Mem.tail _ (List.Mem.tail _ (List.Mem.head _))) rfl rfl rfl
    (List.Mem.head _) (List.Mem.tail _ (List.Mem.head _))
  have hcount : oursCount docOne2 "Stop" = oursCount docOne "Stop" := h.2.2
  refine ⟨h.2.1, ?_⟩
  rw [hcount]
  rfl

/-- Claim C7: strict-vs-loose asymmetry: a hook group containing both an
action with our signature and an object action with a foreign command
string is seen by the loose check (`hasOurHook` is true of any sequence
containing it, so merge does not append), yet is never removed by the
strict filter of prune. -/
theorem C7_strict_loose_asymmetry
    (f : List (String × Json)) (hs : List Json) (hA hB : Json)
    (fB : List (String × Json)) (cB : String)
    (hhs : lookupKey f "hooks" = some (Json.arr hs))
    (hAmem : hA ∈ hs) (hAours : isOurAction hA = true)
    (hBmem : hB ∈ hs) (hBobj : hB = Json.obj fB)
    (hBcmd : lookupKey fB "command" = some (Json.str cB))
    (hBforeign : stringIncludes cB SIGNATURE = false) :
    ∀ l, Json.obj f ∈ l →
      hasOurHook l = true ∧ Json.obj f ∈ removeOurHookEntries l := by
  intro l hmem
  have hentry : entryHasOurHook (Json.obj f) = true := by
    simp only [entryHasOurHook, hhs]
    exact List.any_eq_true.mpr ⟨hA, hAmem, hAours⟩
  have hBnot : isOurAction hB = false := by
    rw [hBobj]
    simp [isOurAction, hBcmd, hBforeign]
  have honly : hasOnlyOurHook (Json.obj f) = false := by
    simp only [hasOnlyOurHook, hhs]
    cases hall : hs.all isOurAction
    · rfl
    · exact absurd (List.all_eq_true.mp hall hB hBmem) (by simp [hBnot])
  constructor
  · exact List.any_eq_true.mpr ⟨Json.obj f, hmem, hentry⟩
  · exact List.mem_filter.mpr ⟨hmem, by simp [honly]⟩

/-- Witness for C7 at the concrete mixed group: it triggers the loose
check and survives the strict filter. -/
theorem C7_witness :
    hasOurHook [mixedGroup] = true ∧
    mixedGroup ∈ removeOurHookEntries [mixedGroup] :=
  C7_strict_loose_asymmetry
    [("hooks", Json.arr [userAction, ourHookAction])]
    [userAction, ourHookAction] ourHookAction userAction
    [("type", Json.str "command"), ("command", Json.str "echo hi")] "echo hi"
    rfl (List.Mem.tail _ (List.Mem.head _)) rfl (List.Mem.head _) rfl rfl rfl
    [mixedGroup] (List.Mem.head _)

/-- Claim C8: prune empty-cleanup: when the hooks section is an object, each
catalog event holding an array is replaced by the filtered array of its
non-strictly-ours groups, the event key disappearing when the filter
leaves nothing; and after the loop, the `hooks` key itself is deleted
exactly when the processed section is an empty mapping. -/
theorem C8_prune_cleanup (d : List (String × Json)) (h : List (String × Json))
    (hl : lookupKey d "hooks" = some (Json.obj h)) :
    (∀ p ∈ HOOKS_CONFIG, ∀ a, lookupKey h p.1 = some (Json.arr a) →
        lookupKey (pruneFold HOOKS_CONFIG h) p.1 =
          (match removeOurHookEntries a with
           | [] => none
           | l => some (Json.arr l))) ∧
    ((pruneFold HOOKS_CONFIG h).isEmpty = true →
        lookupKey (removeHooks d) "hooks" = none) ∧
    ((pruneFold HOOKS_CONFIG h).isEmpty = false →
        lookupKey (removeHooks d) "hooks" =
          some (Json.obj (pruneFold HOOKS_CONFIG h))) := by
  refine ⟨fun p hp a ha => ?_, fun hemp => ?_, fun hemp => ?_⟩
  · rw [lookupKey_pruneFold_mem HOOKS_CONFIG catalogEvents_nodup h p hp, ha]
    rfl
  · rw [removeHooks_of_obj d h hl, if_pos hemp]
    exact lookupKey_delKey_self d "hooks"
  · rw [removeHooks_of_obj d h hl, if_neg (by simp [hemp])]
    exact lookupKey_setKey_self d "hooks" _

/-- Witness for C8 at scenario D: a document whose only event holds
only our group loses the event and the whole hooks key. -/
theorem C8_witness : lookupKey (removeHooks docD) "hooks" = none := by
  have h := C8_prune_cleanup docD [("SessionStart", Json.arr [ourPlainGroup])] rfl
  exact h.2.1 rfl

/-- Claim C9: presence check: `areHooksConfigured` is true exactly when the
file exists, parses to a JSON object, that object has an object-valued
`hooks` section, and the section has a key for at least one catalog
event — regardless of the key's value (the entry need not be ours);
missing files, unreadable files, and sections without a catalog key all
yield false. -/
theorem C9_isConfigured_iff (st : FileState) :
    areHooksConfigured st = true ↔
      ∃ o h, st = .content (.obj o) ∧ lookupKey o "hooks" = some (.obj h) ∧
        ∃ p ∈ HOOKS_CONFIG, (lookupKey h p.1).isSome = true := by
  constructor
  · intro hT
    cases st with
    | absent => cases hT
    | unreadable => cases hT
    | content j =>
        cases j with
        | obj o =>
            rcases Option.eq_none_or_eq_some (lookupKey o "hooks") with hlh | ⟨w, hlh⟩
            · simp [areHooksConfigured, hlh] at hT
            · cases w with
              | obj h =>
                  refine ⟨o, h, rfl, hlh, ?_⟩
                  simp only [areHooksConfigured, hlh, truthy, if_true] at hT
                  exact List.any_eq_true.mp hT
              | arr a => simp [areHooksConfigured, hlh, truthy] at hT
              | null => simp [areHooksConfigured, hlh, truthy] at hT
              | bool b => simp [areHooksConfigured, hlh, truthy] at hT
              | num n => simp [areHooksConfigured, hlh, truthy] at hT
              | str s => simp [areHooksConfigured, hlh, truthy] at hT
        | null => cases hT
        | bool b => cases hT
        | num n => cases hT
        | str s => cases hT
        | arr a => cases hT
  · rintro ⟨o, h, rfl, hh, p, hp, hps⟩
    simp only [areHooksConfigured, hh, truthy, if_true]
    exact List.any_eq_true.mpr ⟨p, hp, hps⟩

/-- The strict classification, spelled out: a group is strictly ours
iff it is an object whose `hooks` field is an array (possibly empty)
every element of which is an object whose string command contains the
signature substring. -/
theorem hasOnlyOurHook_iff (g : Json) :
    hasOnlyOurHook g = true ↔
      ∃ f hs, g = Json.obj f ∧ lookupKey f "hooks" = some (Json.arr hs) ∧
        ∀ x ∈ hs, isOurAction x = true := by
  constructor
  · intro hg
    cases g with
    | obj f =>
        rcases Option.eq_none_or_eq_some (lookupKey f "hooks") with hlh | ⟨w, hlh⟩
        · simp [hasOnlyOurHook, hlh] at hg
        · cases w with
          | arr hs =>
              refine ⟨f, hs, rfl, hlh, ?_⟩
              simp only [hasOnlyOurHook, hlh] at hg
              exact List.all_eq_true.mp hg
          | null => simp [hasOnlyOurHook, hlh] at hg
          | bool b => simp [hasOnlyOurHook, hlh] at hg
          | num n => simp [hasOnlyOurHook, hlh] at hg
          | str s => simp [hasOnlyOurHook, hlh] at hg
          | obj f2 => simp [hasOnlyOurHook, hlh] at hg
    | null => cases hg
    | bool b => cases hg
    | num n => cases hg
    | str s => cases hg
    | arr a => cases hg
  · rintro ⟨f, hs, rfl, hlh, hall⟩
    simp only [hasOnlyOurHook, hlh]
    exact List.all_eq_true.mpr hall

/-- Claim C4, amended: strict ownership without the non-emptiness clause:
prune removes a group from an event array exactly when the group is an
object whose `hooks` field is an array — possibly empty — in which
every element is an object whose string command contains the signature
substring; a group with a malformed element or any foreign action is
never removed. -/
theorem C4_strict_ownership (l : List Json) (g : Json) (hg : g ∈ l) :
    g ∉ removeOurHookEntries l ↔
      ∃ f hs, g = Json.obj f ∧ lookupKey f "hooks" = some (Json.arr hs) ∧
        ∀ x ∈ hs, isOurAction x = true := by
  rw [← hasOnlyOurHook_iff g]
  constructor
  · intro hnot
    cases hh : hasOnlyOurHook g
    · exact absurd (List.mem_filter.mpr ⟨hg, by simp [hh]⟩) hnot
    · rfl
  · intro hh hcontra
    have hkeep := (List.mem_filter.mp hcontra).2
    simp [hh] at hkeep

/-- Counterexample to C4 as stated: a group whose `hooks` array is
empty is classified as strictly ours (`Array.prototype.every` is
vacuously true) and IS deleted by the prune filter, although the claim
requires a non-empty sequence for the classification and promises such
a group is never deleted. -/
theorem C4_counterexample :
    hasOnlyOurHook emptyHooksGroup = true ∧
    removeOurHookEntries [emptyHooksGroup] = [] :=
  ⟨rfl, rfl⟩

/-- Witness for C4 at a concrete array: among a user group and our
canonical group, exactly the canonical group is removed. -/
theorem C4_witness :
    ourPlainGroup ∉ removeOurHookEntries [userGroup, ourPlainGroup] :=
  (C4_strict_ownership [userGroup, ourPlainGroup] ourPlainGroup
    (List.Mem.tail _ (List.Mem.head _))).mpr
    ⟨[("hooks", Json.arr [ourHookAction])], [ourHookAction], rfl, rfl, by decide⟩

end ClaudeBlocker
